import Mathlib

/-!
Shallow embedding of `internal/engine/orderbook.go` from the
`matching-engine` repository, together with proofs about the claims of
its specification.

Modelling conventions:
* Go `float64` prices and quantities are modelled as exact integers
  (`Int`); every claim under study concerns only ordering, addition and
  subtraction, which are represented faithfully.
* The two `redblacktree.Tree` instances are modelled by their map
  semantics: association lists sorted by the side's comparator.  `Get`,
  `Put`, `Remove` and in-order iteration (whose first node is `Left()`)
  become list operations on that sorted list.
* The Go `map[string]*Order` is an association list with unique keys;
  `delete` removes the key, assignment overwrites the binding.
* `sync.RWMutex` locking and `time.Time` timestamps are irrelevant to
  the sequential claims and are not modelled (timestamps are carried as
  inert integer fields).
-/

namespace Engine

/-- Side of an order: `BUY` or `SELL` (orderbook.go lines 10-15). -/
inductive OrderSide where
  | Buy
  | Sell
deriving DecidableEq, Repr

/-- Type of an order: `LIMIT` or `MARKET` (orderbook.go lines 17-22). -/
inductive OrderType where
  | Limit
  | Market
deriving DecidableEq, Repr

/-- Status of an order (orderbook.go lines 24-31).  The source constant
`PARTIAL` is rendered `PartialFill`. -/
inductive OrderStatus where
  | Pending
  | PartialFill
  | Filled
  | Cancelled
deriving DecidableEq, Repr

/-- An order (orderbook.go lines 33-47).  The source field `Type` is
rendered `Type'`; `CreatedAt`/`UpdatedAt` are inert stand-ins for the
`time.Time` fields. -/
structure Order where
  ID : String
  UserID : String
  Symbol : String
  Side : OrderSide
  Type' : OrderType
  Price : Int
  Quantity : Int
  FilledQty : Int
  Status : OrderStatus
  CreatedAt : Int
  UpdatedAt : Int
  SequenceNum : Int
deriving DecidableEq, Repr

/-- Orders resting at one price point (orderbook.go lines 49-54). -/
structure PriceLevel where
  Price : Int
  Orders : List Order
  Volume : Int
deriving DecidableEq, Repr

/-- Map semantics of a `redblacktree.Tree` keyed by price: an
association list kept sorted by the side's comparator. -/
abbrev Tree := List (Int × PriceLevel)

/-- Comparator of `BuyTree` (orderbook.go lines 71-80): highest price
first, so `-1` (here `.lt`) when `a > b`. -/
def buyCmp (a b : Int) : Ordering :=
  if a > b then .lt else if a < b then .gt else .eq

/-- Comparator of `SellTree` (orderbook.go lines 82-91): lowest price
first. -/
def sellCmp (a b : Int) : Ordering :=
  if a < b then .lt else if a > b then .gt else .eq

/-- `tree.Get(k)`: the value stored at key `k`, if any. -/
def treeGet : Tree → Int → Option PriceLevel
  | [], _ => none
  | e :: rest, k => if e.1 = k then some e.2 else treeGet rest k

/-- `tree.Put(k, v)`: insert at the comparator-determined position,
replacing the entry whose key compares equal when there is one. -/
def treePut (cmp : Int → Int → Ordering) : Tree → Int → PriceLevel → Tree
  | [], k, v => [(k, v)]
  | e :: rest, k, v =>
    match cmp k e.1 with
    | .lt => (k, v) :: e :: rest
    | .eq => (k, v) :: rest
    | .gt => e :: treePut cmp rest k v

/-- `tree.Remove(k)`: delete the entry at key `k`. -/
def treeRemove (t : Tree) (k : Int) : Tree :=
  t.filter (fun e => e.1 ≠ k)

/-- Lookup in the Go `map[string]*Order`. -/
def mapGet : List (String × Order) → String → Option Order
  | [], _ => none
  | e :: rest, k => if e.1 = k then some e.2 else mapGet rest k

/-- Assignment `m[k] = v` in the Go map: overwrite the binding of `k`,
or append a new one. -/
def mapPut : List (String × Order) → String → Order → List (String × Order)
  | [], k, v => [(k, v)]
  | e :: rest, k, v =>
    if e.1 = k then (k, v) :: rest else e :: mapPut rest k v

/-- `delete(m, k)` in the Go map: drop the binding of `k`. -/
def mapDel (m : List (String × Order)) (k : String) : List (String × Order) :=
  m.filter (fun e => e.1 ≠ k)

/-- The order book (orderbook.go lines 56-64).  The mutex is not
modelled; `sequence` is the per-book counter. -/
structure OrderBook where
  Symbol : String
  BuyTree : Tree
  SellTree : Tree
  OrderMap : List (String × Order)
  sequence : Int
deriving DecidableEq

/-- `NewOrderBook` (orderbook.go lines 66-94): empty trees, empty index,
counter at zero. -/
def NewOrderBook (symbol : String) : OrderBook :=
  { Symbol := symbol, BuyTree := [], SellTree := [], OrderMap := [], sequence := 0 }

/-- `getTree` (orderbook.go lines 232-237): the tree of a side. -/
def getTree (ob : OrderBook) (side : OrderSide) : Tree :=
  if side = OrderSide.Buy then ob.BuyTree else ob.SellTree

/-- The comparator the side's tree was built with. -/
def treeCmp (side : OrderSide) : Int → Int → Ordering :=
  if side = OrderSide.Buy then buyCmp else sellCmp

/-- Write back the (functionally updated) tree of a side. -/
def setTree (ob : OrderBook) (side : OrderSide) (t : Tree) : OrderBook :=
  if side = OrderSide.Buy then { ob with BuyTree := t } else { ob with SellTree := t }

/-- Lines 108-121 of `AddOrder`: the level found at price `p`, or the
freshly created empty level. -/
def levelAt (t : Tree) (p : Int) : PriceLevel :=
  match treeGet t p with
  | some l => l
  | none => { Price := p, Orders := [], Volume := 0 }

/-- Lines 108-124 of `AddOrder`: get or create the price level at
`o.Price`, append `o` at the tail, and add `o.Quantity` to the level's
volume. -/
def addToTree (cmp : Int → Int → Ordering) (t : Tree) (o : Order) : Tree :=
  let level := levelAt t o.Price
  treePut cmp t o.Price
    { level with Orders := level.Orders ++ [o], Volume := level.Volume + o.Quantity }

/-- `AddOrder` (orderbook.go lines 96-125): bump the sequence counter,
stamp the order, index it, and place it at its price level. -/
def AddOrder (ob : OrderBook) (order : Order) : OrderBook :=
  let seq := ob.sequence + 1
  let stamped := { order with SequenceNum := seq }
  let ob' := { ob with sequence := seq, OrderMap := mapPut ob.OrderMap order.ID stamped }
  setTree ob' order.Side
    (addToTree (treeCmp order.Side) (getTree ob order.Side) stamped)

/-- Lines 148-155 of `RemoveOrder`: remove the first order of the level
whose ID matches, subtracting `remainingQty` from the volume; when no
order matches, the loop leaves the level untouched. -/
def removeFromLevel (level : PriceLevel) (orderID : String) (remainingQty : Int) : PriceLevel :=
  if level.Orders.any (fun o => o.ID = orderID) then
    { level with
      Orders := level.Orders.eraseP (fun o => o.ID = orderID),
      Volume := level.Volume - remainingQty }
  else level

/-- Lines 139-160 of `RemoveOrder`: look the level up; when present,
delete the order from it and drop the level when it became empty. -/
def removeFromTree (cmp : Int → Int → Ordering) (t : Tree) (order : Order)
    (orderID : String) : Tree :=
  match treeGet t order.Price with
  | none => t
  | some level =>
    let level' := removeFromLevel level orderID (order.Quantity - order.FilledQty)
    if level'.Orders.isEmpty then treeRemove t order.Price
    else treePut cmp t order.Price level'

/-- `RemoveOrder` (orderbook.go lines 127-163): returns the removed
order (or `none` for an unknown ID) together with the updated book. -/
def RemoveOrder (ob : OrderBook) (orderID : String) : Option Order × OrderBook :=
  match mapGet ob.OrderMap orderID with
  | none => (none, ob)
  | some order =>
    let ob' := { ob with OrderMap := mapDel ob.OrderMap orderID }
    (some order,
      setTree ob' order.Side
        (removeFromTree (treeCmp order.Side) (getTree ob' order.Side) order orderID))

/-- `GetBestBid` (orderbook.go lines 165-176): `(0, false)` on an empty
buy side, otherwise the key of the leftmost node — the head of the
descending-sorted buy list. -/
def GetBestBid (ob : OrderBook) : Int × Bool :=
  match ob.BuyTree with
  | [] => (0, false)
  | e :: _ => (e.1, true)

/-- `GetBestAsk` (orderbook.go lines 178-189): `(0, false)` on an empty
sell side, otherwise the key of the leftmost node — the head of the
ascending-sorted sell list. -/
def GetBestAsk (ob : OrderBook) : Int × Bool :=
  match ob.SellTree with
  | [] => (0, false)
  | e :: _ => (e.1, true)

/-- `GetSpread` (orderbook.go lines 191-201). -/
def GetSpread (ob : OrderBook) : Int :=
  let bid := GetBestBid ob
  let ask := GetBestAsk ob
  if !bid.2 || !ask.2 then 0 else ask.1 - bid.1

/-- The iteration loop of `GetDepth` (orderbook.go lines 212-227): copy
out levels in tree order while `count < levels`. -/
def depthSlice : Tree → Nat → List PriceLevel
  | _, 0 => []
  | [], _ => []
  | e :: rest, Nat.succ n => e.2 :: depthSlice rest n

/-- `GetDepth` (orderbook.go lines 203-230): the top `levels` levels of
each side. -/
def GetDepth (ob : OrderBook) (levels : Nat) : List PriceLevel × List PriceLevel :=
  (depthSlice ob.BuyTree levels, depthSlice ob.SellTree levels)

/-- `GetOrder` (orderbook.go lines 239-246). -/
def GetOrder (ob : OrderBook) (orderID : String) : Option Order :=
  mapGet ob.OrderMap orderID

/-- `Size` (orderbook.go lines 248-254): number of indexed orders. -/
def Size (ob : OrderBook) : Int :=
  ob.OrderMap.length

/-- Book states reachable by any sequence of `AddOrder` and
`RemoveOrder` calls from `NewOrderBook`. -/
inductive Reachable : OrderBook → Prop where
  | new (symbol : String) : Reachable (NewOrderBook symbol)
  | add (ob : OrderBook) (o : Order) : Reachable ob → Reachable (AddOrder ob o)
  | remove (ob : OrderBook) (orderID : String) :
      Reachable ob → Reachable (RemoveOrder ob orderID).2

/-- Book states reachable when the caller respects the specification's
insert precondition: every inserted order has `FilledQty = 0` (so its
residual is its full quantity) and an identifier not currently
indexed. -/
inductive ReachableFresh : OrderBook → Prop where
  | new (symbol : String) : ReachableFresh (NewOrderBook symbol)
  | add (ob : OrderBook) (o : Order) : ReachableFresh ob → o.FilledQty = 0 →
      mapGet ob.OrderMap o.ID = none → ReachableFresh (AddOrder ob o)
  | remove (ob : OrderBook) (orderID : String) :
      ReachableFresh ob → ReachableFresh (RemoveOrder ob orderID).2

/-- Residual (remaining) quantity of an order. -/
def residual (o : Order) : Int :=
  o.Quantity - o.FilledQty

/-- Sum of the residuals of a sequence of orders. -/
def residualSum (l : List Order) : Int :=
  (l.map residual).sum

/-- The specification's volume invariant: every price level's `Volume`
equals the sum of the residuals of its orders. -/
abbrev VolumeInvariant (ob : OrderBook) : Prop :=
  (∀ e ∈ ob.BuyTree, e.2.Volume = residualSum e.2.Orders) ∧
  (∀ e ∈ ob.SellTree, e.2.Volume = residualSum e.2.Orders)

/-- Keys of the buy tree descend, keys of the sell tree ascend (the
red-black trees keep their entries ordered by their comparators). -/
abbrev SortedBook (ob : OrderBook) : Prop :=
  ob.BuyTree.Pairwise (fun x y => y.1 < x.1) ∧
  ob.SellTree.Pairwise (fun x y => x.1 < y.1)

/-- Every level is stored under its own price as key. -/
abbrev LevelPriceOK (ob : OrderBook) : Prop :=
  (∀ e ∈ ob.BuyTree, e.2.Price = e.1) ∧ (∀ e ∈ ob.SellTree, e.2.Price = e.1)

/-- Consistency of one side's tree with the order index: every resting
order sits under its own price, on its own side, with zero filled
quantity, is indexed under its identifier, identifiers within a level
are unique, and the level's volume is the sum of its residuals. -/
abbrev SideOK (m : List (String × Order)) (side : OrderSide) (t : Tree) : Prop :=
  ∀ e ∈ t,
    (∀ o ∈ e.2.Orders,
      o.Price = e.1 ∧ o.Side = side ∧ o.FilledQty = 0 ∧ mapGet m o.ID = some o) ∧
    e.2.Volume = residualSum e.2.Orders ∧
    (e.2.Orders.map Order.ID).Nodup

/-- Both sides of the book are consistent with the order index. -/
abbrev WellFormed (ob : OrderBook) : Prop :=
  SideOK ob.OrderMap OrderSide.Buy ob.BuyTree ∧
  SideOK ob.OrderMap OrderSide.Sell ob.SellTree

/-! ### Concrete data used in counterexamples and witnesses -/

def symS : String := "S"

def uidU : String := "u"

def idA : String := "A"

def idB : String := "B"

def idX : String := "X"

/-- A limit order with the given identifier, side, price, quantity and
filled quantity; the remaining fields are fixed at defaults. -/
def mkOrder (id : String) (side : OrderSide) (price qty filled : Int) : Order :=
  { ID := id, UserID := uidU, Symbol := symS, Side := side,
    Type' := OrderType.Limit, Price := price, Quantity := qty,
    FilledQty := filled, Status := OrderStatus.Pending,
    CreatedAt := 0, UpdatedAt := 0, SequenceNum := 0 }

def oA : Order := mkOrder idA OrderSide.Buy 100 2 0

def oB : Order := mkOrder idB OrderSide.Buy 100 3 0

def oBSell : Order := mkOrder idB OrderSide.Sell 110 3 0

def oX : Order := mkOrder idX OrderSide.Buy 100 2 0

/-- A second order reusing identifier `idX`. -/
def oXdup : Order := mkOrder idX OrderSide.Buy 101 5 0

/-- An order inserted with nonzero filled quantity (allowed by the
specification for `status = PARTIAL` makers). -/
def oPartial : Order := mkOrder idX OrderSide.Buy 100 2 1

/-- `oA` as stamped by `AddOrder` from a fresh book. -/
def stA : Order := { oA with SequenceNum := 1 }

/-- `oB` as stamped by `AddOrder` as the second admission. -/
def stB : Order := { oB with SequenceNum := 2 }

/-- `oX` as stamped by `AddOrder` from a fresh book. -/
def stX : Order := { oX with SequenceNum := 1 }

/-- The book holding only `oX`. -/
def ob1 : OrderBook := AddOrder (NewOrderBook symS) oX

/-- The book holding `oA` and `oB`, both buys at price 100. -/
def bookAB : OrderBook := AddOrder (AddOrder (NewOrderBook symS) oA) oB

/-- The level of `bookAB` at price 100. -/
def LAB : PriceLevel := { Price := 100, Orders := [stA, stB], Volume := 5 }

/-- The book holding a buy at 100 and a sell at 110. -/
def bookBA : OrderBook := AddOrder (AddOrder (NewOrderBook symS) oA) oBSell

/-- The reachable book obtained by inserting the partially filled
order `oPartial` into a fresh book. -/
def badBook : OrderBook := AddOrder (NewOrderBook symS) oPartial

/-- A book whose index holds `oX` although no price level does: a stale
index entry. -/
def staleBook : OrderBook :=
  { Symbol := symS, BuyTree := [], SellTree := [],
    OrderMap := [(idX, oX)], sequence := 5 }

/-! ### Basic facts about the comparators -/

theorem buyCmp_eq_iff (a b : Int) : buyCmp a b = .eq ↔ a = b := by
  unfold buyCmp; split_ifs <;> simp_all <;> omega

theorem buyCmp_lt_iff (a b : Int) : buyCmp a b = .lt ↔ b < a := by
  unfold buyCmp; split_ifs <;> simp_all <;> omega

theorem buyCmp_gt_iff (a b : Int) : buyCmp a b = .gt ↔ a < b := by
  unfold buyCmp; split_ifs <;> simp_all <;> omega

theorem sellCmp_eq_iff (a b : Int) : sellCmp a b = .eq ↔ a = b := by
  unfold sellCmp; split_ifs <;> simp_all <;> omega

theorem sellCmp_lt_iff (a b : Int) : sellCmp a b = .lt ↔ a < b := by
  unfold sellCmp; split_ifs <;> simp_all <;> omega

theorem sellCmp_gt_iff (a b : Int) : sellCmp a b = .gt ↔ b < a := by
  unfold sellCmp; split_ifs <;> simp_all <;> omega

theorem treeCmp_eq_iff (side : OrderSide) (a b : Int) :
    treeCmp side a b = .eq ↔ a = b := by
  cases side <;>
    simp only [treeCmp, reduceIte, buyCmp_eq_iff, sellCmp_eq_iff, reduceCtorEq]

/-! ### Basic facts about the order index -/

theorem mapGet_mapPut_self (m : List (String × Order)) (k : String) (v : Order) :
    mapGet (mapPut m k v) k = some v := by
  induction m with
  | nil => simp [mapPut, mapGet]
  | cons e rest ih =>
    by_cases h : e.1 = k
    · simp [mapPut, h, mapGet]
    · simp [mapPut, h, mapGet, ih]

theorem mapGet_mapPut_ne (m : List (String × Order)) (k k' : String) (v : Order)
    (h : k' ≠ k) : mapGet (mapPut m k v) k' = mapGet m k' := by
  have hnk : ¬(k = k') := fun hh => h hh.symm
  have hkn : ¬(k' = k) := h
  induction m with
  | nil => simp [mapPut, mapGet, hnk]
  | cons e rest ih =>
    by_cases he : e.1 = k
    · have hek' : ¬(e.1 = k') := by rw [he]; exact hnk
      simp [mapPut, he, mapGet, hnk, hkn, hek']
    · by_cases he' : e.1 = k'
      · simp [mapPut, he, mapGet, he', hnk, hkn]
      · simp [mapPut, he, mapGet, he', ih]

theorem mem_mapPut (m : List (String × Order)) (k : String) (v : Order)
    (p : String × Order) (hp : p ∈ mapPut m k v) : p = (k, v) ∨ p ∈ m := by
  induction m with
  | nil => simpa [mapPut] using hp
  | cons e rest ih =>
    by_cases he : e.1 = k
    · simp only [mapPut, he, reduceIte, List.mem_cons] at hp
      rcases hp with h | h
      · exact Or.inl h
      · exact Or.inr (List.mem_cons_of_mem _ h)
    · simp only [mapPut, he, reduceIte, List.mem_cons] at hp
      rcases hp with h | h
      · exact Or.inr (h ▸ List.mem_cons_self _ _)
      · rcases ih h with h' | h'
        · exact Or.inl h'
        · exact Or.inr (List.mem_cons_of_mem _ h')

theorem mapDel_cons (e : String × Order) (rest : List (String × Order)) (k : String) :
    mapDel (e :: rest) k =
      if e.1 = k then mapDel rest k else e :: mapDel rest k := by
  by_cases he : e.1 = k <;> simp [mapDel, he]

theorem mapGet_mapDel_self (m : List (String × Order)) (k : String) :
    mapGet (mapDel m k) k = none := by
  induction m with
  | nil => simp [mapDel, mapGet]
  | cons e rest ih =>
    rw [mapDel_cons]
    by_cases h : e.1 = k
    · simpa [h] using ih
    · simp [h, mapGet, ih]

theorem mapGet_mapDel_ne (m : List (String × Order)) (k k' : String)
    (h : k' ≠ k) : mapGet (mapDel m k) k' = mapGet m k' := by
  induction m with
  | nil => simp [mapDel, mapGet]
  | cons e rest ih =>
    rw [mapDel_cons]
    by_cases he : e.1 = k
    · have hek' : ¬(e.1 = k') := fun hh => h (he.symm.trans hh).symm
      have hkk' : ¬(k = k') := fun hh => h hh.symm
      simp [he, mapGet, hek', hkk', ih]
    · by_cases he' : e.1 = k'
      · simp [he, mapGet, he', h]
      · simp [he, mapGet, he', ih]

theorem mem_mapDel (m : List (String × Order)) (k : String)
    (p : String × Order) (hp : p ∈ mapDel m k) : p ∈ m :=
  List.mem_of_mem_filter hp

theorem mapGet_some_mem (m : List (String × Order)) (k : String) (v : Order)
    (h : mapGet m k = some v) : (k, v) ∈ m := by
  induction m with
  | nil => simp [mapGet] at h
  | cons e rest ih =>
    by_cases he : e.1 = k
    · simp only [mapGet, he, reduceIte, Option.some.injEq] at h
      have hkv : (k, v) = e := by
        cases e
        simp_all
      exact hkv ▸ List.mem_cons_self _ _
    · simp only [mapGet, he, reduceIte] at h
      exact List.mem_cons_of_mem _ (ih h)

theorem mapDel_length (m : List (String × Order)) (k : String) (v : Order)
    (hnd : (m.map Prod.fst).Nodup) (h : mapGet m k = some v) :
    (mapDel m k).length + 1 = m.length := by
  induction m with
  | nil => simp [mapGet] at h
  | cons e rest ih =>
    rw [List.map_cons, List.nodup_cons] at hnd
    rw [mapDel_cons]
    by_cases he : e.1 = k
    · have hrest : mapDel rest k = rest := by
        apply List.filter_eq_self.2
        intro p hp
        have hpk : p.1 ≠ k := by
          intro hpk
          exact hnd.1 (List.mem_map.2 ⟨p, hp, hpk.trans he.symm⟩)
        simpa using hpk
      simp [he, hrest]
    · simp only [mapGet, he, reduceIte] at h
      simpa [he] using ih hnd.2 h

/-! ### Basic facts about the price trees -/

theorem treeGet_mem (t : Tree) (k : Int) (l : PriceLevel)
    (h : treeGet t k = some l) : (k, l) ∈ t := by
  induction t with
  | nil => simp [treeGet] at h
  | cons e rest ih =>
    by_cases he : e.1 = k
    · simp only [treeGet, he, reduceIte, Option.some.injEq] at h
      have hkl : (k, l) = e := by
        cases e
        simp_all
      exact hkl ▸ List.mem_cons_self _ _
    · simp only [treeGet, he, reduceIte] at h
      exact List.mem_cons_of_mem _ (ih h)

theorem mem_treePut (cmp : Int → Int → Ordering) (t : Tree) (k : Int)
    (v : PriceLevel) (e : Int × PriceLevel) (he : e ∈ treePut cmp t k v) :
    e = (k, v) ∨ e ∈ t := by
  induction t with
  | nil => simpa [treePut] using he
  | cons e' rest ih =>
    simp only [treePut] at he
    cases hc : cmp k e'.1 <;> rw [hc] at he <;> simp only [List.mem_cons] at he
    case lt =>
      rcases he with h | h | h
      · exact Or.inl h
      · exact Or.inr (h ▸ List.mem_cons_self _ _)
      · exact Or.inr (List.mem_cons_of_mem _ h)
    case eq =>
      rcases he with h | h
      · exact Or.inl h
      · exact Or.inr (List.mem_cons_of_mem _ h)
    case gt =>
      rcases he with h | h
      · exact Or.inr (h ▸ List.mem_cons_self _ _)
      · rcases ih h with h' | h'
        · exact Or.inl h'
        · exact Or.inr (List.mem_cons_of_mem _ h')

theorem treeGet_treePut_self (cmp : Int → Int → Ordering)
    (heq : ∀ a b, cmp a b = .eq ↔ a = b) (t : Tree) (k : Int) (v : PriceLevel) :
    treeGet (treePut cmp t k v) k = some v := by
  induction t with
  | nil => simp [treePut, treeGet]
  | cons e rest ih =>
    simp only [treePut]
    cases hc : cmp k e.1
    case lt => simp [treeGet]
    case eq => simp [treeGet]
    case gt =>
      have : e.1 ≠ k := by
        intro hk
        rw [(heq k e.1).2 hk.symm] at hc
        cases hc
      simp [treeGet, this, ih]

theorem treeGet_treePut_ne (cmp : Int → Int → Ordering)
    (heq : ∀ a b, cmp a b = .eq ↔ a = b) (t : Tree)
    (k k' : Int) (v : PriceLevel) (h : k' ≠ k) :
    treeGet (treePut cmp t k v) k' = treeGet t k' := by
  have hnk : ¬(k = k') := fun hh => h hh.symm
  induction t with
  | nil => simp [treePut, treeGet, hnk]
  | cons e rest ih =>
    simp only [treePut]
    cases hc : cmp k e.1
    case lt => simp [treeGet, hnk]
    case eq =>
      have hke : k = e.1 := (heq _ _).1 hc
      have he' : ¬(e.1 = k') := fun hh => hnk (hke.trans hh)
      simp [treeGet, hnk, he']
    case gt => simp [treeGet, ih]

theorem treeRemove_cons (e : Int × PriceLevel) (rest : Tree) (k : Int) :
    treeRemove (e :: rest) k =
      if e.1 = k then treeRemove rest k else e :: treeRemove rest k := by
  by_cases he : e.1 = k <;> simp [treeRemove, he]

theorem treeGet_treeRemove_self (t : Tree) (k : Int) :
    treeGet (treeRemove t k) k = none := by
  induction t with
  | nil => simp [treeRemove, treeGet]
  | cons e rest ih =>
    rw [treeRemove_cons]
    by_cases he : e.1 = k
    · simpa [he] using ih
    · simp [he, treeGet, ih]

theorem treeGet_treeRemove_ne (t : Tree) (k k' : Int) (h : k' ≠ k) :
    treeGet (treeRemove t k) k' = treeGet t k' := by
  induction t with
  | nil => simp [treeRemove, treeGet]
  | cons e rest ih =>
    rw [treeRemove_cons]
    by_cases he : e.1 = k
    · have hek' : ¬(e.1 = k') := fun hh => h (he.symm.trans hh).symm
      have hkk' : ¬(k = k') := fun hh => h hh.symm
      simp [he, treeGet, hek', hkk', ih]
    · by_cases he' : e.1 = k'
      · simp [he, treeGet, he', h]
      · simp [he, treeGet, he', ih]

theorem mem_treeRemove (t : Tree) (k : Int) (e : Int × PriceLevel)
    (he : e ∈ treeRemove t k) : e ∈ t :=
  List.mem_of_mem_filter he

theorem pairwise_treePut (cmp : Int → Int → Ordering) (r : Int → Int → Prop)
    (hlt : ∀ a b, cmp a b = .lt → r a b)
    (hgt : ∀ a b, cmp a b = .gt → r b a)
    (heq : ∀ a b, cmp a b = .eq → a = b)
    (htr : ∀ a b c, r a b → r b c → r a c)
    (t : Tree) (k : Int) (v : PriceLevel)
    (hpw : t.Pairwise (fun x y => r x.1 y.1)) :
    (treePut cmp t k v).Pairwise (fun x y => r x.1 y.1) := by
  induction t with
  | nil => simp [treePut]
  | cons e rest ih =>
    rw [List.pairwise_cons] at hpw
    simp only [treePut]
    cases hc : cmp k e.1
    case lt =>
      refine List.Pairwise.cons ?_ (List.Pairwise.cons hpw.1 hpw.2)
      intro x hx
      rcases List.mem_cons.1 hx with hx | hx
      · rw [hx]; exact hlt _ _ hc
      · exact htr _ _ _ (hlt _ _ hc) (hpw.1 x hx)
    case eq =>
      refine List.Pairwise.cons ?_ hpw.2
      intro x hx
      rw [heq _ _ hc]
      exact hpw.1 x hx
    case gt =>
      refine List.Pairwise.cons ?_ (ih hpw.2)
      intro x hx
      rcases mem_treePut cmp rest k v x hx with hx' | hx'
      · rw [hx']; exact hgt _ _ hc
      · exact hpw.1 x hx'

theorem pairwise_treeRemove (r : Int × PriceLevel → Int × PriceLevel → Prop)
    (t : Tree) (k : Int) (hpw : t.Pairwise r) : (treeRemove t k).Pairwise r :=
  List.Pairwise.sublist (List.filter_sublist t) hpw

/-! ### Facts about side dispatch -/

theorem setTree_sequence (ob : OrderBook) (side : OrderSide) (t : Tree) :
    (setTree ob side t).sequence = ob.sequence := by
  cases side <;> simp [setTree]

theorem setTree_OrderMap (ob : OrderBook) (side : OrderSide) (t : Tree) :
    (setTree ob side t).OrderMap = ob.OrderMap := by
  cases side <;> simp [setTree]

theorem getTree_setTree_self (ob : OrderBook) (side : OrderSide) (t : Tree) :
    getTree (setTree ob side t) side = t := by
  cases side <;> simp [getTree, setTree]

theorem getTree_setTree_ne (ob : OrderBook) (side s : OrderSide) (t : Tree)
    (h : s ≠ side) : getTree (setTree ob side t) s = getTree ob s := by
  cases side <;> cases s <;> simp_all [getTree, setTree]

theorem treeCmp_heq (side : OrderSide) :
    ∀ a b, treeCmp side a b = .eq ↔ a = b := by
  cases side <;> simp [treeCmp, buyCmp_eq_iff, sellCmp_eq_iff]

/-! ### Unfolding the two mutating operations -/

theorem AddOrder_sequence (ob : OrderBook) (o : Order) :
    (AddOrder ob o).sequence = ob.sequence + 1 := by
  simp [AddOrder, setTree_sequence]

theorem AddOrder_OrderMap (ob : OrderBook) (o : Order) :
    (AddOrder ob o).OrderMap =
      mapPut ob.OrderMap o.ID { o with SequenceNum := ob.sequence + 1 } := by
  simp [AddOrder, setTree_OrderMap]

theorem AddOrder_getTree_self (ob : OrderBook) (o : Order) :
    getTree (AddOrder ob o) o.Side =
      addToTree (treeCmp o.Side) (getTree ob o.Side)
        { o with SequenceNum := ob.sequence + 1 } := by
  simp [AddOrder, getTree_setTree_self]

theorem AddOrder_getTree_ne (ob : OrderBook) (o : Order) (s : OrderSide)
    (h : s ≠ o.Side) : getTree (AddOrder ob o) s = getTree ob s := by
  simp only [AddOrder]
  rw [getTree_setTree_ne _ _ _ _ h]
  cases s <;> simp [getTree]

theorem RemoveOrder_not_found (ob : OrderBook) (orderID : String)
    (h : mapGet ob.OrderMap orderID = none) :
    RemoveOrder ob orderID = (none, ob) := by
  simp [RemoveOrder, h]

theorem RemoveOrder_found (ob : OrderBook) (orderID : String) (o : Order)
    (h : mapGet ob.OrderMap orderID = some o) :
    RemoveOrder ob orderID =
      (some o,
        setTree { ob with OrderMap := mapDel ob.OrderMap orderID } o.Side
          (removeFromTree (treeCmp o.Side) (getTree ob o.Side) o orderID)) := by
  simp [RemoveOrder, h]
  rfl

theorem RemoveOrder_sequence (ob : OrderBook) (orderID : String) :
    (RemoveOrder ob orderID).2.sequence = ob.sequence := by
  rcases hm : mapGet ob.OrderMap orderID with _ | o
  · rw [RemoveOrder_not_found ob orderID hm]
  · rw [RemoveOrder_found ob orderID o hm]
    simp [setTree_sequence]

theorem getTree_Buy (ob : OrderBook) : getTree ob OrderSide.Buy = ob.BuyTree := by
  simp [getTree]

theorem getTree_Sell (ob : OrderBook) : getTree ob OrderSide.Sell = ob.SellTree := by
  simp [getTree]

theorem setTree_getTree_self (ob : OrderBook) (side : OrderSide) :
    setTree ob side (getTree ob side) = ob := by
  cases side <;> simp [setTree, getTree]

theorem treeGet_addToTree_self (cmp : Int → Int → Ordering)
    (heq : ∀ a b, cmp a b = .eq ↔ a = b) (t : Tree) (o : Order) :
    treeGet (addToTree cmp t o) o.Price =
      some { levelAt t o.Price with
             Orders := (levelAt t o.Price).Orders ++ [o],
             Volume := (levelAt t o.Price).Volume + o.Quantity } := by
  unfold addToTree
  exact treeGet_treePut_self cmp heq t o.Price _

theorem treeGet_addToTree_ne (cmp : Int → Int → Ordering)
    (heq : ∀ a b, cmp a b = .eq ↔ a = b) (t : Tree) (o : Order) (p : Int)
    (h : p ≠ o.Price) :
    treeGet (addToTree cmp t o) p = treeGet t p := by
  unfold addToTree
  exact treeGet_treePut_ne cmp heq t o.Price p _ h

theorem setTree_Buy_BuyTree (ob : OrderBook) (t : Tree) :
    (setTree ob OrderSide.Buy t).BuyTree = t := by
  simp [setTree]

theorem setTree_Buy_SellTree (ob : OrderBook) (t : Tree) :
    (setTree ob OrderSide.Buy t).SellTree = ob.SellTree := by
  simp [setTree]

theorem setTree_Sell_BuyTree (ob : OrderBook) (t : Tree) :
    (setTree ob OrderSide.Sell t).BuyTree = ob.BuyTree := by
  simp [setTree]

theorem setTree_Sell_SellTree (ob : OrderBook) (t : Tree) :
    (setTree ob OrderSide.Sell t).SellTree = t := by
  simp [setTree]

theorem AddOrder_BuyTree_of_buy (ob : OrderBook) (o : Order)
    (ho : o.Side = OrderSide.Buy) :
    (AddOrder ob o).BuyTree =
      addToTree buyCmp ob.BuyTree
        { o with Side := OrderSide.Buy, SequenceNum := ob.sequence + 1 } := by
  have h := AddOrder_getTree_self ob o
  rw [ho] at h
  rw [getTree_Buy, getTree_Buy] at h
  simpa [treeCmp] using h

theorem AddOrder_SellTree_of_buy (ob : OrderBook) (o : Order)
    (ho : o.Side = OrderSide.Buy) :
    (AddOrder ob o).SellTree = ob.SellTree := by
  have h := AddOrder_getTree_ne ob o OrderSide.Sell (by rw [ho]; intro hh; cases hh)
  rwa [getTree_Sell, getTree_Sell] at h

theorem AddOrder_SellTree_of_sell (ob : OrderBook) (o : Order)
    (ho : o.Side = OrderSide.Sell) :
    (AddOrder ob o).SellTree =
      addToTree sellCmp ob.SellTree
        { o with Side := OrderSide.Sell, SequenceNum := ob.sequence + 1 } := by
  have h := AddOrder_getTree_self ob o
  rw [ho] at h
  rw [getTree_Sell, getTree_Sell] at h
  simpa [treeCmp] using h

theorem AddOrder_BuyTree_of_sell (ob : OrderBook) (o : Order)
    (ho : o.Side = OrderSide.Sell) :
    (AddOrder ob o).BuyTree = ob.BuyTree := by
  have h := AddOrder_getTree_ne ob o OrderSide.Buy (by rw [ho]; intro hh; cases hh)
  rwa [getTree_Buy, getTree_Buy] at h

theorem RemoveOrder_BuyTree_of_buy (ob : OrderBook) (orderID : String) (o : Order)
    (hm : mapGet ob.OrderMap orderID = some o) (ho : o.Side = OrderSide.Buy) :
    (RemoveOrder ob orderID).2.BuyTree =
      removeFromTree buyCmp ob.BuyTree o orderID := by
  rw [RemoveOrder_found ob orderID o hm, ho]
  rw [setTree_Buy_BuyTree, getTree_Buy]
  simp [treeCmp]

theorem RemoveOrder_SellTree_of_buy (ob : OrderBook) (orderID : String) (o : Order)
    (hm : mapGet ob.OrderMap orderID = some o) (ho : o.Side = OrderSide.Buy) :
    (RemoveOrder ob orderID).2.SellTree = ob.SellTree := by
  rw [RemoveOrder_found ob orderID o hm, ho]
  rw [setTree_Buy_SellTree]

theorem RemoveOrder_SellTree_of_sell (ob : OrderBook) (orderID : String) (o : Order)
    (hm : mapGet ob.OrderMap orderID = some o) (ho : o.Side = OrderSide.Sell) :
    (RemoveOrder ob orderID).2.SellTree =
      removeFromTree sellCmp ob.SellTree o orderID := by
  rw [RemoveOrder_found ob orderID o hm, ho]
  rw [setTree_Sell_SellTree, getTree_Sell]
  simp [treeCmp]

theorem RemoveOrder_BuyTree_of_sell (ob : OrderBook) (orderID : String) (o : Order)
    (hm : mapGet ob.OrderMap orderID = some o) (ho : o.Side = OrderSide.Sell) :
    (RemoveOrder ob orderID).2.BuyTree = ob.BuyTree := by
  rw [RemoveOrder_found ob orderID o hm, ho]
  rw [setTree_Sell_BuyTree]

/-! ### Preservation lemmas for the tree-level operations -/

theorem removeFromTree_no_level (cmp : Int → Int → Ordering) (t : Tree) (o : Order)
    (orderID : String) (ht : treeGet t o.Price = none) :
    removeFromTree cmp t o orderID = t := by
  simp [removeFromTree, ht]

theorem removeFromTree_level (cmp : Int → Int → Ordering) (t : Tree) (o : Order)
    (orderID : String) (level : PriceLevel) (ht : treeGet t o.Price = some level) :
    removeFromTree cmp t o orderID =
      if (removeFromLevel level orderID (o.Quantity - o.FilledQty)).Orders.isEmpty
      then treeRemove t o.Price
      else treePut cmp t o.Price
        (removeFromLevel level orderID (o.Quantity - o.FilledQty)) := by
  simp [removeFromTree, ht]

theorem pairwise_addToTree (cmp : Int → Int → Ordering) (r : Int → Int → Prop)
    (hlt : ∀ a b, cmp a b = .lt → r a b)
    (hgt : ∀ a b, cmp a b = .gt → r b a)
    (heq : ∀ a b, cmp a b = .eq → a = b)
    (htr : ∀ a b c, r a b → r b c → r a c)
    (t : Tree) (o : Order) (hpw : t.Pairwise (fun x y => r x.1 y.1)) :
    (addToTree cmp t o).Pairwise (fun x y => r x.1 y.1) := by
  unfold addToTree
  exact pairwise_treePut cmp r hlt hgt heq htr t o.Price _ hpw

theorem pairwise_removeFromTree (cmp : Int → Int → Ordering) (r : Int → Int → Prop)
    (hlt : ∀ a b, cmp a b = .lt → r a b)
    (hgt : ∀ a b, cmp a b = .gt → r b a)
    (heq : ∀ a b, cmp a b = .eq → a = b)
    (htr : ∀ a b c, r a b → r b c → r a c)
    (t : Tree) (o : Order) (orderID : String)
    (hpw : t.Pairwise (fun x y => r x.1 y.1)) :
    (removeFromTree cmp t o orderID).Pairwise (fun x y => r x.1 y.1) := by
  cases ht : treeGet t o.Price
  case none => rw [removeFromTree_no_level cmp t o orderID ht]; exact hpw
  case some level =>
    rw [removeFromTree_level cmp t o orderID level ht]
    by_cases hE : (removeFromLevel level orderID (o.Quantity - o.FilledQty)).Orders.isEmpty
    · rw [if_pos hE]
      exact pairwise_treeRemove _ t o.Price hpw
    · rw [if_neg hE]
      exact pairwise_treePut cmp r hlt hgt heq htr t o.Price _ hpw

theorem noEmpty_addToTree (cmp : Int → Int → Ordering) (t : Tree) (o : Order)
    (h : ∀ e ∈ t, e.2.Orders ≠ []) :
    ∀ e ∈ addToTree cmp t o, e.2.Orders ≠ [] := by
  intro e he
  unfold addToTree at he
  rcases mem_treePut _ _ _ _ _ he with h' | h'
  · rw [h']
    simp
  · exact h e h'

theorem noEmpty_removeFromTree (cmp : Int → Int → Ordering) (t : Tree) (o : Order)
    (orderID : String) (h : ∀ e ∈ t, e.2.Orders ≠ []) :
    ∀ e ∈ removeFromTree cmp t o orderID, e.2.Orders ≠ [] := by
  intro e he
  cases ht : treeGet t o.Price
  case none => rw [removeFromTree_no_level cmp t o orderID ht] at he; exact h e he
  case some level =>
    rw [removeFromTree_level cmp t o orderID level ht] at he
    by_cases hE : (removeFromLevel level orderID (o.Quantity - o.FilledQty)).Orders.isEmpty
    · rw [if_pos hE] at he
      exact h e (mem_treeRemove _ _ _ he)
    · rw [if_neg hE] at he
      rcases mem_treePut _ _ _ _ _ he with h' | h'
      · rw [h']
        intro hnil
        apply hE
        simp only at hnil
        simp [hnil]
      · exact h e h'

theorem levelPrice_addToTree (cmp : Int → Int → Ordering) (t : Tree) (o : Order)
    (h : ∀ e ∈ t, e.2.Price = e.1) :
    ∀ e ∈ addToTree cmp t o, e.2.Price = e.1 := by
  intro e he
  unfold addToTree at he
  rcases mem_treePut _ _ _ _ _ he with h' | h'
  · rw [h']
    show (levelAt t o.Price).Price = o.Price
    unfold levelAt
    cases ht : treeGet t o.Price
    case none => rfl
    case some l => exact h (o.Price, l) (treeGet_mem _ _ _ ht)
  · exact h e h'

theorem levelPrice_removeFromTree (cmp : Int → Int → Ordering) (t : Tree) (o : Order)
    (orderID : String) (h : ∀ e ∈ t, e.2.Price = e.1) :
    ∀ e ∈ removeFromTree cmp t o orderID, e.2.Price = e.1 := by
  intro e he
  cases ht : treeGet t o.Price
  case none => rw [removeFromTree_no_level cmp t o orderID ht] at he; exact h e he
  case some level =>
    rw [removeFromTree_level cmp t o orderID level ht] at he
    by_cases hE : (removeFromLevel level orderID (o.Quantity - o.FilledQty)).Orders.isEmpty
    · rw [if_pos hE] at he
      exact h e (mem_treeRemove _ _ _ he)
    · rw [if_neg hE] at he
      rcases mem_treePut _ _ _ _ _ he with h' | h'
      · rw [h']
        show (removeFromLevel level orderID (o.Quantity - o.FilledQty)).Price = o.Price
        have hl : level.Price = o.Price := h (o.Price, level) (treeGet_mem _ _ _ ht)
        unfold removeFromLevel
        split <;> exact hl
      · exact h e h'

/-! ### Claim C5: removing an unknown identifier -/

/-- C5: for every book state and identifier not present in the order
index, `RemoveOrder` returns `none` and leaves the book unchanged;
consequently a second `RemoveOrder` of an identifier just removed
returns `none` and is a no-op on the book. -/
theorem C5_remove_unknown_noop :
    (∀ (ob : OrderBook) (orderID : String),
        mapGet ob.OrderMap orderID = none →
        RemoveOrder ob orderID = (none, ob)) ∧
    (∀ (ob : OrderBook) (orderID : String) (o : Order),
        (RemoveOrder ob orderID).1 = some o →
        RemoveOrder (RemoveOrder ob orderID).2 orderID =
          (none, (RemoveOrder ob orderID).2)) := by
  constructor
  · exact fun ob orderID h => RemoveOrder_not_found ob orderID h
  · intro ob orderID o h
    rcases hm : mapGet ob.OrderMap orderID with _ | o'
    · rw [RemoveOrder_not_found ob orderID hm] at h
      cases h
    · apply RemoveOrder_not_found
      rw [RemoveOrder_found ob orderID o' hm]
      simp [setTree_OrderMap, mapGet_mapDel_self]

theorem C5_witness :
    RemoveOrder (NewOrderBook symS) idX = (none, NewOrderBook symS) ∧
    RemoveOrder (RemoveOrder ob1 idX).2 idX = (none, (RemoveOrder ob1 idX).2) :=
  ⟨C5_remove_unknown_noop.1 (NewOrderBook symS) idX (by decide),
   C5_remove_unknown_noop.2 ob1 idX stX (by decide)⟩

/-! ### Claim C9: the spread -/

/-- C9: whenever both sides are non-empty (both getters report `true`),
`GetSpread` returns exactly best ask minus best bid. -/
theorem C9_spread (ob : OrderBook) (bid ask : Int)
    (hb : GetBestBid ob = (bid, true)) (ha : GetBestAsk ob = (ask, true)) :
    GetSpread ob = ask - bid := by
  simp [GetSpread, hb, ha]

theorem C9_witness : GetSpread bookBA = 110 - 100 :=
  C9_spread bookBA 100 110 (by decide) (by decide)

/-! ### Claim C10: removal through a stale index entry -/

/-- C10: when `orderID` is indexed but no level exists at the order's
price on its side, `RemoveOrder` returns the order and deletes the index
entry while leaving both trees (hence all levels and volumes) unchanged,
and `Size` decreases by one. -/
theorem C10_remove_stale (ob : OrderBook) (orderID : String) (o : Order)
    (hm : mapGet ob.OrderMap orderID = some o)
    (ht : treeGet (getTree ob o.Side) o.Price = none)
    (hnd : (ob.OrderMap.map Prod.fst).Nodup) :
    RemoveOrder ob orderID =
      (some o, { ob with OrderMap := mapDel ob.OrderMap orderID }) ∧
    (RemoveOrder ob orderID).2.BuyTree = ob.BuyTree ∧
    (RemoveOrder ob orderID).2.SellTree = ob.SellTree ∧
    Size (RemoveOrder ob orderID).2 + 1 = Size ob := by
  have hmain : RemoveOrder ob orderID =
      (some o, { ob with OrderMap := mapDel ob.OrderMap orderID }) := by
    rw [RemoveOrder_found ob orderID o hm]
    unfold removeFromTree
    rw [ht]
    exact congrArg _ (setTree_getTree_self _ _)
  refine ⟨hmain, ?_, ?_, ?_⟩
  · rw [hmain]
  · rw [hmain]
  · rw [hmain]
    unfold Size
    have := mapDel_length ob.OrderMap orderID o hnd hm
    simp only []
    exact_mod_cast this

theorem C10_witness :
    RemoveOrder staleBook idX =
      (some oX, { staleBook with OrderMap := mapDel staleBook.OrderMap idX }) ∧
    (RemoveOrder staleBook idX).2.BuyTree = staleBook.BuyTree ∧
    (RemoveOrder staleBook idX).2.SellTree = staleBook.SellTree ∧
    Size (RemoveOrder staleBook idX).2 + 1 = Size staleBook :=
  C10_remove_stale staleBook idX oX (by decide) (by decide) (by decide)

/-! ### Claim C2: duplicate identifiers on insert -/

/-- C2 counterexample: `idX` is live in `ob1`, yet `AddOrder` with a
second order of identifier `idX` does not fail: it mutates the book and
consumes a sequence number, contradicting the claim that the insert
fails with `DuplicateOrder`, leaves the book unchanged and consumes no
sequence number. -/
theorem C2_counterexample :
    mapGet ob1.OrderMap idX = some stX ∧
    AddOrder ob1 oXdup ≠ ob1 ∧
    (AddOrder ob1 oXdup).sequence = ob1.sequence + 1 := by
  decide

/-- C2 amended: `AddOrder` performs no duplicate check.  Even when the
identifier is already indexed, it consumes a sequence number, overwrites
the index entry with the new order, and appends the stamped order to its
price level. -/
theorem C2_amended_duplicate_add_overwrites (ob : OrderBook) (o old : Order)
    (hdup : mapGet ob.OrderMap o.ID = some old) :
    (AddOrder ob o).sequence = ob.sequence + 1 ∧
    mapGet (AddOrder ob o).OrderMap o.ID =
      some { o with SequenceNum := ob.sequence + 1 } ∧
    treeGet (getTree (AddOrder ob o) o.Side) o.Price =
      some { levelAt (getTree ob o.Side) o.Price with
             Orders := (levelAt (getTree ob o.Side) o.Price).Orders ++
               [{ o with SequenceNum := ob.sequence + 1 }],
             Volume := (levelAt (getTree ob o.Side) o.Price).Volume + o.Quantity } := by
  refine ⟨AddOrder_sequence ob o, ?_, ?_⟩
  · rw [AddOrder_OrderMap]
    exact mapGet_mapPut_self _ _ _
  · rw [AddOrder_getTree_self]
    exact treeGet_addToTree_self _ (treeCmp_heq o.Side) _ _

theorem C2_amended_witness :
    (AddOrder ob1 oXdup).sequence = ob1.sequence + 1 ∧
    mapGet (AddOrder ob1 oXdup).OrderMap oXdup.ID =
      some { oXdup with SequenceNum := ob1.sequence + 1 } ∧
    treeGet (getTree (AddOrder ob1 oXdup) oXdup.Side) oXdup.Price =
      some { levelAt (getTree ob1 oXdup.Side) oXdup.Price with
             Orders := (levelAt (getTree ob1 oXdup.Side) oXdup.Price).Orders ++
               [{ oXdup with SequenceNum := ob1.sequence + 1 }],
             Volume := (levelAt (getTree ob1 oXdup.Side) oXdup.Price).Volume +
               oXdup.Quantity } :=
  C2_amended_duplicate_add_overwrites ob1 oXdup stX (by decide)

/-! ### Claim C3: the sequence counter -/

/-- C3 counterexample: `idX` is live in `ob1`, its removal is a
cancel-effect (the order is returned), yet the sequence counter is not
incremented — contradicting the claim that the counter is incremented
for a cancel-effect. -/
theorem C3_counterexample :
    mapGet ob1.OrderMap idX = some stX ∧
    (RemoveOrder ob1 idX).1 = some stX ∧
    (RemoveOrder ob1 idX).2.sequence = ob1.sequence := by
  decide

/-- C3 amended: the counter never decreases and is never reused, but it
is incremented only by `AddOrder` (which stamps the accepted order with
the new value, strictly greater than the sequence number of every order
in the book); `RemoveOrder` leaves the counter unchanged. -/
theorem C3_amended_sequence (ob : OrderBook) (hr : Reachable ob) :
    (∀ p ∈ ob.OrderMap, p.2.SequenceNum ≤ ob.sequence) ∧
    (∀ o : Order,
      (AddOrder ob o).sequence = ob.sequence + 1 ∧
      mapGet (AddOrder ob o).OrderMap o.ID =
        some { o with SequenceNum := ob.sequence + 1 }) ∧
    (∀ orderID : String, (RemoveOrder ob orderID).2.sequence = ob.sequence) := by
  refine ⟨?_, fun o => ⟨AddOrder_sequence ob o, by rw [AddOrder_OrderMap]; exact mapGet_mapPut_self _ _ _⟩,
          fun orderID => RemoveOrder_sequence ob orderID⟩
  induction hr with
  | new symbol => intro p hp; simp [NewOrderBook] at hp
  | add ob o hro ih =>
    intro p hp
    rw [AddOrder_OrderMap] at hp
    rw [AddOrder_sequence]
    rcases mem_mapPut _ _ _ _ hp with h | h
    · rw [h]
    · exact le_trans (ih p h) (by omega)
  | remove ob orderID hro ih =>
    intro p hp
    rw [RemoveOrder_sequence]
    rcases hm : mapGet ob.OrderMap orderID with _ | o'
    · rw [RemoveOrder_not_found ob orderID hm] at hp
      exact ih p hp
    · rw [RemoveOrder_found ob orderID o' hm, setTree_OrderMap] at hp
      exact ih p (mem_mapDel _ _ _ hp)

theorem C3_amended_witness :
    (AddOrder (NewOrderBook symS) oX).sequence = (NewOrderBook symS).sequence + 1 ∧
    (RemoveOrder (NewOrderBook symS) idX).2.sequence = (NewOrderBook symS).sequence :=
  ⟨((C3_amended_sequence (NewOrderBook symS) (Reachable.new symS)).2.1 oX).1,
   (C3_amended_sequence (NewOrderBook symS) (Reachable.new symS)).2.2 idX⟩

/-! ### Claim C1: the volume invariant -/

/-- C1 counterexample: inserting the partially filled order `oPartial`
(quantity 2, filled 1) is a reachable step, after which the level at 100
has volume 2 while the sum of residuals is 1 — `AddOrder` adds the full
quantity, not the residual, so the claimed invariant fails. -/
theorem C1_counterexample :
    Reachable badBook ∧
    treeGet badBook.BuyTree 100 =
      some { Price := 100, Orders := [{ oPartial with SequenceNum := 1 }], Volume := 2 } ∧
    residualSum [{ oPartial with SequenceNum := 1 }] = 1 ∧
    ¬ VolumeInvariant badBook :=
  ⟨Reachable.add _ _ (Reachable.new _), by decide, by decide, by decide⟩

/-! ### Reachability invariants: sortedness, level keys -/

theorem reachable_sorted (ob : OrderBook) (hr : Reachable ob) : SortedBook ob := by
  induction hr with
  | new symbol => exact ⟨List.Pairwise.nil, List.Pairwise.nil⟩
  | add ob o hro ih =>
    obtain ⟨hb, hs⟩ := ih
    cases ho : o.Side
    case Buy =>
      refine ⟨?_, ?_⟩
      · rw [AddOrder_BuyTree_of_buy ob o ho]
        exact pairwise_addToTree buyCmp (fun a b => b < a)
          (fun a b hc => (buyCmp_lt_iff a b).1 hc)
          (fun a b hc => (buyCmp_gt_iff a b).1 hc)
          (fun a b hc => (buyCmp_eq_iff a b).1 hc)
          (fun a b c hab hbc => lt_trans hbc hab) ob.BuyTree _ hb
      · rw [AddOrder_SellTree_of_buy ob o ho]
        exact hs
    case Sell =>
      refine ⟨?_, ?_⟩
      · rw [AddOrder_BuyTree_of_sell ob o ho]
        exact hb
      · rw [AddOrder_SellTree_of_sell ob o ho]
        exact pairwise_addToTree sellCmp (fun a b => a < b)
          (fun a b hc => (sellCmp_lt_iff a b).1 hc)
          (fun a b hc => (sellCmp_gt_iff a b).1 hc)
          (fun a b hc => (sellCmp_eq_iff a b).1 hc)
          (fun a b c hab hbc => lt_trans hab hbc) ob.SellTree _ hs
  | remove ob orderID hro ih =>
    obtain ⟨hb, hs⟩ := ih
    rcases hm : mapGet ob.OrderMap orderID with _ | o
    · rw [RemoveOrder_not_found ob orderID hm]
      exact ⟨hb, hs⟩
    · cases ho : o.Side
      case Buy =>
        refine ⟨?_, ?_⟩
        · rw [RemoveOrder_BuyTree_of_buy ob orderID o hm ho]
          exact pairwise_removeFromTree buyCmp (fun a b => b < a)
            (fun a b hc => (buyCmp_lt_iff a b).1 hc)
            (fun a b hc => (buyCmp_gt_iff a b).1 hc)
            (fun a b hc => (buyCmp_eq_iff a b).1 hc)
            (fun a b c hab hbc => lt_trans hbc hab) ob.BuyTree o orderID hb
        · rw [RemoveOrder_SellTree_of_buy ob orderID o hm ho]
          exact hs
      case Sell =>
        refine ⟨?_, ?_⟩
        · rw [RemoveOrder_BuyTree_of_sell ob orderID o hm ho]
          exact hb
        · rw [RemoveOrder_SellTree_of_sell ob orderID o hm ho]
          exact pairwise_removeFromTree sellCmp (fun a b => a < b)
            (fun a b hc => (sellCmp_lt_iff a b).1 hc)
            (fun a b hc => (sellCmp_gt_iff a b).1 hc)
            (fun a b hc => (sellCmp_eq_iff a b).1 hc)
            (fun a b c hab hbc => lt_trans hab hbc) ob.SellTree o orderID hs

theorem reachable_levelPrice (ob : OrderBook) (hr : Reachable ob) :
    LevelPriceOK ob := by
  induction hr with
  | new symbol => exact ⟨fun e he => absurd he (List.not_mem_nil e), fun e he => absurd he (List.not_mem_nil e)⟩
  | add ob o hro ih =>
    obtain ⟨hb, hs⟩ := ih
    cases ho : o.Side
    case Buy =>
      refine ⟨?_, ?_⟩
      · rw [AddOrder_BuyTree_of_buy ob o ho]
        exact levelPrice_addToTree buyCmp ob.BuyTree _ hb
      · rw [AddOrder_SellTree_of_buy ob o ho]
        exact hs
    case Sell =>
      refine ⟨?_, ?_⟩
      · rw [AddOrder_BuyTree_of_sell ob o ho]
        exact hb
      · rw [AddOrder_SellTree_of_sell ob o ho]
        exact levelPrice_addToTree sellCmp ob.SellTree _ hs
  | remove ob orderID hro ih =>
    obtain ⟨hb, hs⟩ := ih
    rcases hm : mapGet ob.OrderMap orderID with _ | o
    · rw [RemoveOrder_not_found ob orderID hm]
      exact ⟨hb, hs⟩
    · cases ho : o.Side
      case Buy =>
        refine ⟨?_, ?_⟩
        · rw [RemoveOrder_BuyTree_of_buy ob orderID o hm ho]
          exact levelPrice_removeFromTree buyCmp ob.BuyTree o orderID hb
        · rw [RemoveOrder_SellTree_of_buy ob orderID o hm ho]
          exact hs
      case Sell =>
        refine ⟨?_, ?_⟩
        · rw [RemoveOrder_BuyTree_of_sell ob orderID o hm ho]
          exact hb
        · rw [RemoveOrder_SellTree_of_sell ob orderID o hm ho]
          exact levelPrice_removeFromTree sellCmp ob.SellTree o orderID hs

/-! ### Claim C6: no empty levels in reachable books -/

/-- C6: in every reachable book state, no price level of either tree
has an empty order sequence. -/
theorem C6_no_empty_levels (ob : OrderBook) (hr : Reachable ob) :
    (∀ e ∈ ob.BuyTree, e.2.Orders ≠ []) ∧
    (∀ e ∈ ob.SellTree, e.2.Orders ≠ []) := by
  induction hr with
  | new symbol => exact ⟨fun e he => absurd he (List.not_mem_nil e), fun e he => absurd he (List.not_mem_nil e)⟩
  | add ob o hro ih =>
    obtain ⟨hb, hs⟩ := ih
    cases ho : o.Side
    case Buy =>
      refine ⟨?_, ?_⟩
      · rw [AddOrder_BuyTree_of_buy ob o ho]
        exact noEmpty_addToTree buyCmp ob.BuyTree _ hb
      · rw [AddOrder_SellTree_of_buy ob o ho]
        exact hs
    case Sell =>
      refine ⟨?_, ?_⟩
      · rw [AddOrder_BuyTree_of_sell ob o ho]
        exact hb
      · rw [AddOrder_SellTree_of_sell ob o ho]
        exact noEmpty_addToTree sellCmp ob.SellTree _ hs
  | remove ob orderID hro ih =>
    obtain ⟨hb, hs⟩ := ih
    rcases hm : mapGet ob.OrderMap orderID with _ | o
    · rw [RemoveOrder_not_found ob orderID hm]
      exact ⟨hb, hs⟩
    · cases ho : o.Side
      case Buy =>
        refine ⟨?_, ?_⟩
        · rw [RemoveOrder_BuyTree_of_buy ob orderID o hm ho]
          exact noEmpty_removeFromTree buyCmp ob.BuyTree o orderID hb
        · rw [RemoveOrder_SellTree_of_buy ob orderID o hm ho]
          exact hs
      case Sell =>
        refine ⟨?_, ?_⟩
        · rw [RemoveOrder_BuyTree_of_sell ob orderID o hm ho]
          exact hb
        · rw [RemoveOrder_SellTree_of_sell ob orderID o hm ho]
          exact noEmpty_removeFromTree sellCmp ob.SellTree o orderID hs

theorem C6_witness : LAB.Orders ≠ [] :=
  (C6_no_empty_levels bookAB
      (Reachable.add _ _ (Reachable.add _ _ (Reachable.new _)))).1
    ((100 : Int), LAB) (by decide)

/-! ### Claim C7: best bid and best ask -/

/-- C7: in every reachable book state, `GetBestBid` returns the maximum
price key of the buy tree paired with `true`, or `(0, false)` when the
buy side is empty; `GetBestAsk` symmetrically returns the minimum price
key of the sell tree, or `(0, false)`. -/
theorem C7_best_prices (ob : OrderBook) (hr : Reachable ob) :
    (ob.BuyTree = [] → GetBestBid ob = (0, false)) ∧
    (ob.BuyTree ≠ [] →
      (GetBestBid ob).2 = true ∧
      (∃ l, ((GetBestBid ob).1, l) ∈ ob.BuyTree) ∧
      ∀ e ∈ ob.BuyTree, e.1 ≤ (GetBestBid ob).1) ∧
    (ob.SellTree = [] → GetBestAsk ob = (0, false)) ∧
    (ob.SellTree ≠ [] →
      (GetBestAsk ob).2 = true ∧
      (∃ l, ((GetBestAsk ob).1, l) ∈ ob.SellTree) ∧
      ∀ e ∈ ob.SellTree, (GetBestAsk ob).1 ≤ e.1) := by
  obtain ⟨hb, hs⟩ := reachable_sorted ob hr
  refine ⟨?_, ?_, ?_, ?_⟩
  · intro h
    simp [GetBestBid, h]
  · intro h
    rcases hbt : ob.BuyTree with _ | ⟨e, rest⟩
    · exact absurd hbt h
    · rw [hbt] at hb
      rw [List.pairwise_cons] at hb
      have hbid : GetBestBid ob = (e.1, true) := by simp [GetBestBid, hbt]
      refine ⟨by rw [hbid], ⟨e.2, ?_⟩, ?_⟩
      · rw [hbid]
        simp
      · intro e' he'
        rw [hbid]
        rcases List.mem_cons.1 he' with h' | h'
        · rw [h']
        · exact le_of_lt (hb.1 e' h')
  · intro h
    simp [GetBestAsk, h]
  · intro h
    rcases hst : ob.SellTree with _ | ⟨e, rest⟩
    · exact absurd hst h
    · rw [hst] at hs
      rw [List.pairwise_cons] at hs
      have hask : GetBestAsk ob = (e.1, true) := by simp [GetBestAsk, hst]
      refine ⟨by rw [hask], ⟨e.2, ?_⟩, ?_⟩
      · rw [hask]
        simp
      · intro e' he'
        rw [hask]
        rcases List.mem_cons.1 he' with h' | h'
        · rw [h']
        · exact le_of_lt (hs.1 e' h')

theorem C7_witness :
    GetBestBid bookBA = (100, true) ∧ GetBestAsk bookBA = (110, true) ∧
    (∀ e ∈ bookBA.BuyTree, e.1 ≤ (GetBestBid bookBA).1) ∧
    (∀ e ∈ bookBA.SellTree, (GetBestAsk bookBA).1 ≤ e.1) :=
  ⟨by decide, by decide,
   ((C7_best_prices bookBA
        (Reachable.add _ _ (Reachable.add _ _ (Reachable.new _)))).2.1
      (by decide)).2.2,
   ((C7_best_prices bookBA
        (Reachable.add _ _ (Reachable.add _ _ (Reachable.new _)))).2.2.2
      (by decide)).2.2⟩

/-! ### Claim C8: depth -/

theorem depthSlice_eq_take (t : Tree) (n : Nat) :
    depthSlice t n = (t.take n).map Prod.snd := by
  induction t generalizing n with
  | nil => cases n <;> simp [depthSlice]
  | cons e rest ih => cases n <;> simp [depthSlice, ih]

/-- C8: in every reachable book state, `GetDepth n` returns exactly the
first `min n (levels on the side)` levels of each side in priority
order — bids starting at the best bid and descending in price, asks
starting at the best ask and ascending — hence at most `n` levels per
side. -/
theorem C8_depth (ob : OrderBook) (n : Nat) (hr : Reachable ob) :
    (GetDepth ob n).1 = (ob.BuyTree.take n).map Prod.snd ∧
    (GetDepth ob n).2 = (ob.SellTree.take n).map Prod.snd ∧
    (GetDepth ob n).1.length = min n ob.BuyTree.length ∧
    (GetDepth ob n).2.length = min n ob.SellTree.length ∧
    (GetDepth ob n).1.Pairwise (fun a b => b.Price < a.Price) ∧
    (GetDepth ob n).2.Pairwise (fun a b => a.Price < b.Price) := by
  obtain ⟨hb, hs⟩ := reachable_sorted ob hr
  obtain ⟨hpb, hps⟩ := reachable_levelPrice ob hr
  have e1 : (GetDepth ob n).1 = (ob.BuyTree.take n).map Prod.snd :=
    depthSlice_eq_take _ _
  have e2 : (GetDepth ob n).2 = (ob.SellTree.take n).map Prod.snd :=
    depthSlice_eq_take _ _
  refine ⟨e1, e2, ?_, ?_, ?_, ?_⟩
  · rw [e1]
    simp [List.length_take]
  · rw [e2]
    simp [List.length_take]
  · rw [e1]
    rw [List.pairwise_map]
    have htake : (ob.BuyTree.take n).Pairwise (fun x y => y.1 < x.1) :=
      List.Pairwise.sublist (List.take_sublist n ob.BuyTree) hb
    refine List.Pairwise.imp_of_mem ?_ htake
    intro a b ha hb' hlt
    have hpa := hpb a (List.take_subset n ob.BuyTree ha)
    have hpb' := hpb b (List.take_subset n ob.BuyTree hb')
    rw [hpa, hpb']
    exact hlt
  · rw [e2]
    rw [List.pairwise_map]
    have htake : (ob.SellTree.take n).Pairwise (fun x y => x.1 < y.1) :=
      List.Pairwise.sublist (List.take_sublist n ob.SellTree) hs
    refine List.Pairwise.imp_of_mem ?_ htake
    intro a b ha hb' hlt
    have hpa := hps a (List.take_subset n ob.SellTree ha)
    have hpb' := hps b (List.take_subset n ob.SellTree hb')
    rw [hpa, hpb']
    exact hlt

theorem C8_witness :
    (GetDepth bookBA 1).1 = (bookBA.BuyTree.take 1).map Prod.snd ∧
    (GetDepth bookBA 1).1.length = min 1 bookBA.BuyTree.length ∧
    (GetDepth bookBA 1).2.length = min 1 bookBA.SellTree.length :=
  ⟨(C8_depth bookBA 1
      (Reachable.add _ _ (Reachable.add _ _ (Reachable.new _)))).1,
   (C8_depth bookBA 1
      (Reachable.add _ _ (Reachable.add _ _ (Reachable.new _)))).2.2.1,
   (C8_depth bookBA 1
      (Reachable.add _ _ (Reachable.add _ _ (Reachable.new _)))).2.2.2.1⟩

/-! ### Claim C4: removing a live order -/

theorem residualSum_append (a b : List Order) :
    residualSum (a ++ b) = residualSum a + residualSum b := by
  simp [residualSum]

theorem residualSum_cons (o : Order) (l : List Order) :
    residualSum (o :: l) = residual o + residualSum l := by
  simp [residualSum]

/-- A list whose matches of `p` are exactly `[o]` splits around `o`, and
erasing the first match erases exactly `o`. -/
theorem filter_eq_single_eraseP (p : Order → Bool) (l : List Order) (o : Order)
    (hf : l.filter p = [o]) :
    ∃ l₁ l₂, l = l₁ ++ o :: l₂ ∧ l.eraseP p = l₁ ++ l₂ ∧
      (∀ b ∈ l₁, ¬ p b = true) ∧ (∀ b ∈ l₂, ¬ p b = true) ∧ p o = true := by
  have ho : o ∈ l.filter p := by
    rw [hf]
    exact List.mem_cons_self _ _
  rw [List.mem_filter] at ho
  obtain ⟨a, l₁, l₂, h₁, h₂, h₃, h₄⟩ := List.exists_of_eraseP ho.1 ho.2
  have hl1 : l₁.filter p = [] := List.filter_eq_nil.2 h₁
  have hfa : l.filter p = a :: l₂.filter p := by
    rw [h₃, List.filter_append, hl1, List.nil_append, List.filter_cons_of_pos h₂]
  rw [hf] at hfa
  obtain ⟨hoa, hnil⟩ := List.cons.inj hfa
  have hl2 : l₂.filter p = [] := hnil.symm
  subst hoa
  exact ⟨l₁, l₂, h₃, h₄, h₁, List.filter_eq_nil.1 hl2, ho.2⟩

/-- C4: removing a live order (indexed, with its level present and the
level's unique identifier match being the indexed order itself) returns
the order, deletes its index entry, deletes it from its level's order
sequence, subtracts its residual quantity from the level's volume, and
removes the level from the tree precisely when its sequence became
empty. -/
theorem C4_remove_live (ob : OrderBook) (orderID : String) (o : Order)
    (L : PriceLevel)
    (hm : mapGet ob.OrderMap orderID = some o)
    (ht : treeGet (getTree ob o.Side) o.Price = some L)
    (hf : L.Orders.filter (fun x => x.ID = orderID) = [o]) :
    (RemoveOrder ob orderID).1 = some o ∧
    mapGet (RemoveOrder ob orderID).2.OrderMap orderID = none ∧
    (∀ x ∈ L.Orders.eraseP (fun x => x.ID = orderID), x.ID ≠ orderID) ∧
    (L.Orders.eraseP (fun x => x.ID = orderID) = [] →
      treeGet (getTree (RemoveOrder ob orderID).2 o.Side) o.Price = none) ∧
    (L.Orders.eraseP (fun x => x.ID = orderID) ≠ [] →
      treeGet (getTree (RemoveOrder ob orderID).2 o.Side) o.Price =
        some { L with Orders := L.Orders.eraseP (fun x => x.ID = orderID),
                      Volume := L.Volume - (o.Quantity - o.FilledQty) }) := by
  have hfound := RemoveOrder_found ob orderID o hm
  have hmemf : o ∈ L.Orders.filter (fun x => x.ID = orderID) := by
    rw [hf]
    exact List.mem_cons_self _ _
  rw [List.mem_filter] at hmemf
  have hany : L.Orders.any (fun x => x.ID = orderID) = true :=
    List.any_eq_true.2 ⟨o, hmemf.1, hmemf.2⟩
  have hRL : removeFromLevel L orderID (o.Quantity - o.FilledQty) =
      { L with Orders := L.Orders.eraseP (fun x => x.ID = orderID),
               Volume := L.Volume - (o.Quantity - o.FilledQty) } := by
    unfold removeFromLevel
    rw [if_pos hany]
  have htree : getTree (RemoveOrder ob orderID).2 o.Side =
      removeFromTree (treeCmp o.Side) (getTree ob o.Side) o orderID := by
    rw [hfound]
    exact getTree_setTree_self _ _ _
  have hmapEq : (RemoveOrder ob orderID).2.OrderMap = mapDel ob.OrderMap orderID := by
    rw [hfound]
    exact setTree_OrderMap _ _ _
  refine ⟨by rw [hfound], ?_, ?_, ?_, ?_⟩
  · rw [hmapEq]
    exact mapGet_mapDel_self _ _
  · obtain ⟨l₁, l₂, heq, herase, h₁, h₂, hpo⟩ :=
      filter_eq_single_eraseP (fun x => x.ID = orderID) L.Orders o hf
    intro x hx
    rw [herase] at hx
    rcases List.mem_append.1 hx with h | h
    · intro hid
      exact h₁ x h (by simp [hid])
    · intro hid
      exact h₂ x h (by simp [hid])
  · intro hempty
    rw [htree, removeFromTree_level _ _ _ _ L ht, hRL]
    rw [if_pos (by simp [hempty])]
    exact treeGet_treeRemove_self _ _
  · intro hne
    rw [htree, removeFromTree_level _ _ _ _ L ht, hRL]
    rw [if_neg (by simp [hne])]
    exact treeGet_treePut_self _ (treeCmp_heq o.Side) _ _ _

theorem C4_witness :
    (RemoveOrder bookAB idA).1 = some stA ∧
    mapGet (RemoveOrder bookAB idA).2.OrderMap idA = none :=
  ⟨(C4_remove_live bookAB idA stA LAB (by decide) (by decide) (by decide)).1,
   (C4_remove_live bookAB idA stA LAB (by decide) (by decide) (by decide)).2.1⟩

/-! ### Claim C1 (amended): the volume invariant under fresh insertion -/

theorem treeGet_none_not_mem (t : Tree) (k : Int) (h : treeGet t k = none) :
    ∀ e ∈ t, e.1 ≠ k := by
  induction t with
  | nil => intro e he; cases he
  | cons a rest ih =>
    intro e he
    by_cases hak : a.1 = k
    · simp [treeGet, hak] at h
    · simp only [treeGet, hak, reduceIte] at h
      rcases List.mem_cons.1 he with rfl | he'
      · exact hak
      · exact ih h e he'

theorem mem_treeRemove_ne (t : Tree) (k : Int) (e : Int × PriceLevel)
    (he : e ∈ treeRemove t k) : e.1 ≠ k := by
  have := List.of_mem_filter he
  simpa using this

/-- Membership in `treePut` over a sorted list: an entry of the result
is the new binding or an old entry whose key differs from the inserted
key. -/
theorem mem_treePut_sorted (cmp : Int → Int → Ordering) (r : Int → Int → Prop)
    (hlt : ∀ a b, cmp a b = .lt → r a b)
    (heqr : ∀ a b, a = b → cmp a b = .eq)
    (heql : ∀ a b, cmp a b = .eq → a = b)
    (hirr : ∀ a, ¬ r a a)
    (htr : ∀ a b c, r a b → r b c → r a c)
    (t : Tree) (k : Int) (v : PriceLevel)
    (hpw : t.Pairwise (fun x y => r x.1 y.1))
    (e : Int × PriceLevel) (he : e ∈ treePut cmp t k v) :
    e = (k, v) ∨ (e ∈ t ∧ e.1 ≠ k) := by
  induction t with
  | nil =>
    simp only [treePut, List.mem_singleton] at he
    exact Or.inl he
  | cons a rest ih =>
    rw [List.pairwise_cons] at hpw
    simp only [treePut] at he
    cases hc : cmp k a.1 <;> rw [hc] at he <;> simp only [List.mem_cons] at he
    case lt =>
      have hrka : r k a.1 := hlt _ _ hc
      rcases he with h | h | h
      · exact Or.inl h
      · refine Or.inr ⟨h ▸ List.mem_cons_self _ _, ?_⟩
        rw [h]
        intro hh
        rw [hh] at hrka
        exact hirr k hrka
      · refine Or.inr ⟨List.mem_cons_of_mem _ h, ?_⟩
        intro hh
        have : r k e.1 := htr _ _ _ hrka (hpw.1 e h)
        rw [hh] at this
        exact hirr k this
    case eq =>
      have hka : k = a.1 := heql _ _ hc
      rcases he with h | h
      · exact Or.inl h
      · refine Or.inr ⟨List.mem_cons_of_mem _ h, ?_⟩
        intro hh
        have hr : r a.1 e.1 := hpw.1 e h
        rw [hh] at hr
        rw [hka] at hr
        exact hirr a.1 hr
    case gt =>
      rcases he with h | h
      · refine Or.inr ⟨h ▸ List.mem_cons_self _ _, ?_⟩
        rw [h]
        intro hh
        rw [heqr _ _ hh.symm] at hc
        cases hc
      · rcases ih hpw.2 h with h' | ⟨h', hne⟩
        · exact Or.inl h'
        · exact Or.inr ⟨List.mem_cons_of_mem _ h', hne⟩

theorem sideOK_mapPut (m : List (String × Order)) (side : OrderSide) (t : Tree)
    (st : Order) (hok : SideOK m side t) (hfresh : mapGet m st.ID = none) :
    SideOK (mapPut m st.ID st) side t := by
  intro e he
  obtain ⟨ha, hv, hn⟩ := hok e he
  refine ⟨?_, hv, hn⟩
  intro o' ho'
  obtain ⟨h1, h2, h3, h4⟩ := ha o' ho'
  have hne : o'.ID ≠ st.ID := by
    intro hh
    rw [hh, hfresh] at h4
    cases h4
  refine ⟨h1, h2, h3, ?_⟩
  rw [mapGet_mapPut_ne m st.ID o'.ID st hne]
  exact h4

theorem sideOK_mapDel_otherSide (m : List (String × Order)) (side : OrderSide)
    (t : Tree) (orderID : String) (o : Order)
    (hok : SideOK m side t) (hm : mapGet m orderID = some o)
    (hside : o.Side ≠ side) : SideOK (mapDel m orderID) side t := by
  intro e he
  obtain ⟨ha, hv, hn⟩ := hok e he
  refine ⟨?_, hv, hn⟩
  intro o' ho'
  obtain ⟨h1, h2, h3, h4⟩ := ha o' ho'
  have hne : o'.ID ≠ orderID := by
    intro hh
    rw [hh, hm] at h4
    have hoo : o = o' := Option.some.inj h4
    exact hside (by rw [hoo]; exact h2)
  refine ⟨h1, h2, h3, ?_⟩
  rw [mapGet_mapDel_ne m orderID o'.ID hne]
  exact h4

theorem sideOK_addToTree (cmp : Int → Int → Ordering)
    (m : List (String × Order)) (side : OrderSide) (t : Tree) (st : Order)
    (hok : SideOK m side t) (hside : st.Side = side) (hfq : st.FilledQty = 0)
    (hfresh : mapGet m st.ID = none) :
    SideOK (mapPut m st.ID st) side (addToTree cmp t st) := by
  have hok' := sideOK_mapPut m side t st hok hfresh
  intro e he
  unfold addToTree at he
  rcases mem_treePut _ _ _ _ _ he with he' | he'
  case inr => exact hok' e he'
  case inl =>
    subst he'
    rcases htg : treeGet t st.Price with _ | l
    · have hlv : levelAt t st.Price = { Price := st.Price, Orders := [], Volume := 0 } := by
        unfold levelAt
        rw [htg]
      rw [hlv]
      refine ⟨?_, ?_, ?_⟩
      · intro o' ho'
        simp only [List.nil_append, List.mem_singleton] at ho'
        subst ho'
        exact ⟨rfl, hside, hfq, mapGet_mapPut_self m o'.ID o'⟩
      · simp [residualSum, residual, hfq]
      · simp
    · have hlv : levelAt t st.Price = l := by
        unfold levelAt
        rw [htg]
      rw [hlv]
      have hmem : (st.Price, l) ∈ t := treeGet_mem t st.Price l htg
      obtain ⟨ha, hv, hn⟩ := hok (st.Price, l) hmem
      refine ⟨?_, ?_, ?_⟩
      · intro o' ho'
        rcases List.mem_append.1 ho' with h | h
        · obtain ⟨h1, h2, h3, h4⟩ := ha o' h
          have hne : o'.ID ≠ st.ID := by
            intro hh
            rw [hh, hfresh] at h4
            cases h4
          refine ⟨h1, h2, h3, ?_⟩
          rw [mapGet_mapPut_ne m st.ID o'.ID st hne]
          exact h4
        · rw [List.mem_singleton.1 h]
          exact ⟨rfl, hside, hfq, mapGet_mapPut_self m st.ID st⟩
      · show l.Volume + st.Quantity = residualSum (l.Orders ++ [st])
        rw [residualSum_append]
        have : residualSum [st] = st.Quantity := by
          simp [residualSum, residual, hfq]
        rw [this, hv]
      · show ((l.Orders ++ [st]).map Order.ID).Nodup
        rw [List.map_append]
        refine List.nodup_append.2 ⟨hn, by simp, ?_⟩
        intro x hx hx'
        simp only [List.map_cons, List.map_nil, List.mem_singleton] at hx'
        rcases List.mem_map.1 hx with ⟨o', ho', rfl⟩
        obtain ⟨_, _, _, h4⟩ := ha o' ho'
        rw [hx', hfresh] at h4
        cases h4

theorem sideOK_removeFromTree (cmp : Int → Int → Ordering) (r : Int → Int → Prop)
    (hlt : ∀ a b, cmp a b = .lt → r a b)
    (heqr : ∀ a b, a = b → cmp a b = .eq)
    (heql : ∀ a b, cmp a b = .eq → a = b)
    (hirr : ∀ a, ¬ r a a)
    (htr : ∀ a b c, r a b → r b c → r a c)
    (m : List (String × Order)) (side : OrderSide) (t : Tree)
    (o : Order) (orderID : String)
    (hok : SideOK m side t) (hm : mapGet m orderID = some o)
    (hpw : t.Pairwise (fun x y => r x.1 y.1)) :
    SideOK (mapDel m orderID) side (removeFromTree cmp t o orderID) := by
  have hold : ∀ e ∈ t, e.1 ≠ o.Price →
      (∀ o' ∈ e.2.Orders, o'.Price = e.1 ∧ o'.Side = side ∧ o'.FilledQty = 0 ∧
        mapGet (mapDel m orderID) o'.ID = some o') ∧
      e.2.Volume = residualSum e.2.Orders ∧ (e.2.Orders.map Order.ID).Nodup := by
    intro e he hne
    obtain ⟨ha, hv, hn⟩ := hok e he
    refine ⟨?_, hv, hn⟩
    intro o' ho'
    obtain ⟨h1, h2, h3, h4⟩ := ha o' ho'
    have hid : o'.ID ≠ orderID := by
      intro hh
      rw [hh, hm] at h4
      have hoo : o = o' := Option.some.inj h4
      apply hne
      rw [← h1, ← hoo]
    refine ⟨h1, h2, h3, ?_⟩
    rw [mapGet_mapDel_ne m orderID o'.ID hid]
    exact h4
  cases htg : treeGet t o.Price
  case none =>
    rw [removeFromTree_no_level cmp t o orderID htg]
    intro e he
    exact hold e he (treeGet_none_not_mem t o.Price htg e he)
  case some L =>
    rw [removeFromTree_level cmp t o orderID L htg]
    have hLmem : (o.Price, L) ∈ t := treeGet_mem t o.Price L htg
    obtain ⟨haL, hvL, hnL⟩ := hok (o.Price, L) hLmem
    have hmatch : ∀ o' ∈ L.Orders, o'.ID = orderID → o' = o := by
      intro o' ho' hid
      obtain ⟨_, _, _, h4⟩ := haL o' ho'
      rw [hid, hm] at h4
      exact (Option.some.inj h4).symm
    by_cases hany : L.Orders.any (fun x => x.ID = orderID) = true
    case neg =>
      have hnomatch : ∀ o' ∈ L.Orders, o'.ID ≠ orderID := by
        intro o' ho' hh
        exact hany (List.any_eq_true.2 ⟨o', ho', by simp [hh]⟩)
      have hRL : removeFromLevel L orderID (o.Quantity - o.FilledQty) = L := by
        unfold removeFromLevel
        rw [if_neg hany]
      rw [hRL]
      by_cases hE : L.Orders.isEmpty = true
      · rw [if_pos hE]
        intro e he
        exact hold e (mem_treeRemove _ _ _ he) (mem_treeRemove_ne _ _ _ he)
      · rw [if_neg hE]
        intro e he
        rcases mem_treePut_sorted cmp r hlt heqr heql hirr htr t o.Price L hpw e he
          with he' | ⟨he', hne⟩
        · subst he'
          refine ⟨?_, hvL, hnL⟩
          intro o' ho'
          obtain ⟨h1, h2, h3, h4⟩ := haL o' ho'
          refine ⟨h1, h2, h3, ?_⟩
          rw [mapGet_mapDel_ne m orderID o'.ID (hnomatch o' ho')]
          exact h4
        · exact hold e he' hne
    case pos =>
      obtain ⟨x0, hx0, hpx0⟩ := List.any_eq_true.1 hany
      have hx0o : x0 = o := hmatch x0 hx0 (by simpa using hpx0)
      rw [hx0o] at hx0 hpx0
      have hoid : o.ID = orderID := by simpa using hpx0
      have hpo : (fun x : Order => decide (x.ID = orderID)) o = true := by
        simpa using hpx0
      obtain ⟨a', l₁, l₂, hnot₁, hpa', hsplit, herase⟩ :=
        @List.exists_of_eraseP Order (fun x => decide (x.ID = orderID)) L.Orders o hx0 hpo
      have ha'mem : a' ∈ L.Orders := by
        rw [hsplit]
        exact List.mem_append.2 (Or.inr (List.mem_cons_self _ _))
      have ha'o : o = a' := (hmatch a' ha'mem (by simpa using hpa')).symm
      subst ha'o
      have hnot₂ : ∀ b ∈ l₂, b.ID ≠ orderID := by
        intro b hb hh
        have hnd := hnL
        rw [hsplit, List.map_append, List.map_cons] at hnd
        have hcons := (List.nodup_append.1 hnd).2.1
        rw [List.nodup_cons] at hcons
        apply hcons.1
        exact List.mem_map.2 ⟨b, hb, by rw [hh, ← hoid]⟩
      have hvol : L.Volume - (o.Quantity - o.FilledQty) = residualSum (l₁ ++ l₂) := by
        rw [hvL, hsplit, residualSum_append, residualSum_cons, residualSum_append]
        simp only [residual]
        ring
      have hRL : removeFromLevel L orderID (o.Quantity - o.FilledQty) =
          { L with Orders := l₁ ++ l₂,
                   Volume := L.Volume - (o.Quantity - o.FilledQty) } := by
        unfold removeFromLevel
        rw [if_pos hany, herase]
      have hsub : List.Sublist (l₁ ++ l₂) L.Orders := by
        rw [hsplit]
        exact List.Sublist.append_left (List.sublist_cons_self _ _) l₁
      by_cases hE : (removeFromLevel L orderID (o.Quantity - o.FilledQty)).Orders.isEmpty = true
      · rw [if_pos hE]
        intro e he
        exact hold e (mem_treeRemove _ _ _ he) (mem_treeRemove_ne _ _ _ he)
      · rw [if_neg hE]
        intro e he
        rcases mem_treePut_sorted cmp r hlt heqr heql hirr htr t o.Price _ hpw e he
          with he' | ⟨he', hne⟩
        · subst he'
          rw [hRL]
          refine ⟨?_, ?_, ?_⟩
          · intro o' ho'
            have ho'L : o' ∈ L.Orders := hsub.subset ho'
            obtain ⟨h1, h2, h3, h4⟩ := haL o' ho'L
            have hid : o'.ID ≠ orderID := by
              rcases List.mem_append.1 ho' with h | h
              · intro hh
                exact hnot₁ o' h (by simp [hh])
              · exact hnot₂ o' h
            refine ⟨h1, h2, h3, ?_⟩
            rw [mapGet_mapDel_ne m orderID o'.ID hid]
            exact h4
          · exact hvol
          · exact List.Nodup.sublist (hsub.map Order.ID) hnL
        · exact hold e he' hne

theorem reachableFresh_reachable (ob : OrderBook) (hr : ReachableFresh ob) :
    Reachable ob := by
  induction hr with
  | new s => exact Reachable.new s
  | add ob o hro hfq hfresh ih => exact Reachable.add ob o ih
  | remove ob orderID hro ih => exact Reachable.remove ob orderID ih

theorem reachableFresh_wellFormed (ob : OrderBook) (hr : ReachableFresh ob) :
    WellFormed ob := by
  induction hr with
  | new s =>
    exact ⟨fun e he => absurd he (List.not_mem_nil e),
           fun e he => absurd he (List.not_mem_nil e)⟩
  | add ob o hro hfq hfresh ih =>
    obtain ⟨hb, hs⟩ := ih
    cases ho : o.Side
    case Buy =>
      constructor
      · rw [AddOrder_OrderMap, AddOrder_BuyTree_of_buy ob o ho]
        have hst : ({ o with Side := OrderSide.Buy, SequenceNum := ob.sequence + 1 } : Order)
            = { o with SequenceNum := ob.sequence + 1 } := by rw [← ho]
        rw [hst]
        exact sideOK_addToTree buyCmp ob.OrderMap OrderSide.Buy ob.BuyTree
          { o with SequenceNum := ob.sequence + 1 } hb ho hfq hfresh
      · rw [AddOrder_OrderMap, AddOrder_SellTree_of_buy ob o ho]
        exact sideOK_mapPut ob.OrderMap OrderSide.Sell ob.SellTree
          { o with SequenceNum := ob.sequence + 1 } hs hfresh
    case Sell =>
      constructor
      · rw [AddOrder_OrderMap, AddOrder_BuyTree_of_sell ob o ho]
        exact sideOK_mapPut ob.OrderMap OrderSide.Buy ob.BuyTree
          { o with SequenceNum := ob.sequence + 1 } hb hfresh
      · rw [AddOrder_OrderMap, AddOrder_SellTree_of_sell ob o ho]
        have hst : ({ o with Side := OrderSide.Sell, SequenceNum := ob.sequence + 1 } : Order)
            = { o with SequenceNum := ob.sequence + 1 } := by rw [← ho]
        rw [hst]
        exact sideOK_addToTree sellCmp ob.OrderMap OrderSide.Sell ob.SellTree
          { o with SequenceNum := ob.sequence + 1 } hs ho hfq hfresh
  | remove ob orderID hro ih =>
    obtain ⟨hb, hs⟩ := ih
    rcases hm : mapGet ob.OrderMap orderID with _ | o
    · rw [RemoveOrder_not_found ob orderID hm]
      exact ⟨hb, hs⟩
    · have hsort := reachable_sorted ob (reachableFresh_reachable ob hro)
      have hmap : (RemoveOrder ob orderID).2.OrderMap = mapDel ob.OrderMap orderID := by
        rw [RemoveOrder_found ob orderID o hm]
        exact setTree_OrderMap _ _ _
      cases ho : o.Side
      case Buy =>
        constructor
        · rw [hmap, RemoveOrder_BuyTree_of_buy ob orderID o hm ho]
          exact sideOK_removeFromTree buyCmp (fun a b => b < a)
            (fun a b hc => (buyCmp_lt_iff a b).1 hc)
            (fun a b hab => (buyCmp_eq_iff a b).2 hab)
            (fun a b hc => (buyCmp_eq_iff a b).1 hc)
            (fun a => lt_irrefl a)
            (fun a b c hab hbc => lt_trans hbc hab)
            ob.OrderMap OrderSide.Buy ob.BuyTree o orderID hb hm hsort.1
        · rw [hmap, RemoveOrder_SellTree_of_buy ob orderID o hm ho]
          exact sideOK_mapDel_otherSide ob.OrderMap OrderSide.Sell ob.SellTree
            orderID o hs hm (by rw [ho]; intro hh; cases hh)
      case Sell =>
        constructor
        · rw [hmap, RemoveOrder_BuyTree_of_sell ob orderID o hm ho]
          exact sideOK_mapDel_otherSide ob.OrderMap OrderSide.Buy ob.BuyTree
            orderID o hb hm (by rw [ho]; intro hh; cases hh)
        · rw [hmap, RemoveOrder_SellTree_of_sell ob orderID o hm ho]
          exact sideOK_removeFromTree sellCmp (fun a b => a < b)
            (fun a b hc => (sellCmp_lt_iff a b).1 hc)
            (fun a b hab => (sellCmp_eq_iff a b).2 hab)
            (fun a b hc => (sellCmp_eq_iff a b).1 hc)
            (fun a => lt_irrefl a)
            (fun a b c hab hbc => lt_trans hab hbc)
            ob.OrderMap OrderSide.Sell ob.SellTree o orderID hs hm hsort.2

/-- C1 amended: `AddOrder` adds the order's full `Quantity` (not its
residual) to its level's volume; the volume invariant — every level's
`Volume` equals the sum of residuals of its orders — holds in every
book state reachable when each inserted order has `FilledQty = 0` and a
fresh identifier, as the specification's insert precondition
requires. -/
theorem C1_amended_volume :
    (∀ ob : OrderBook, ReachableFresh ob → VolumeInvariant ob) ∧
    (∀ (ob : OrderBook) (o : Order),
      treeGet (getTree (AddOrder ob o) o.Side) o.Price =
        some { levelAt (getTree ob o.Side) o.Price with
               Orders := (levelAt (getTree ob o.Side) o.Price).Orders ++
                 [{ o with SequenceNum := ob.sequence + 1 }],
               Volume := (levelAt (getTree ob o.Side) o.Price).Volume + o.Quantity }) := by
  constructor
  · intro ob hr
    obtain ⟨hbuy, hsell⟩ := reachableFresh_wellFormed ob hr
    exact ⟨fun e he => (hbuy e he).2.1, fun e he => (hsell e he).2.1⟩
  · intro ob o
    rw [AddOrder_getTree_self]
    exact treeGet_addToTree_self _ (treeCmp_heq o.Side) _ _

theorem C1_amended_witness :
    VolumeInvariant bookAB ∧
    treeGet (getTree (AddOrder (NewOrderBook symS) oA) oA.Side) oA.Price =
      some { levelAt (getTree (NewOrderBook symS) oA.Side) oA.Price with
             Orders := (levelAt (getTree (NewOrderBook symS) oA.Side) oA.Price).Orders ++
               [{ oA with SequenceNum := (NewOrderBook symS).sequence + 1 }],
             Volume := (levelAt (getTree (NewOrderBook symS) oA.Side) oA.Price).Volume +
               oA.Quantity } :=
  ⟨C1_amended_volume.1 bookAB
      (ReachableFresh.add _ _
        (ReachableFresh.add _ _ (ReachableFresh.new _) (by decide) (by decide))
        (by decide) (by decide)),
   C1_amended_volume.2 (NewOrderBook symS) oA⟩

end Engine
